import Mathlib

/-!
Shallow embedding of `src/ecc_prior/wavelet_testing/
triple_wavelet_testing_all_meta_eccprior_kombine.py`.

The Python code computes with numpy double-precision values, where division
by zero yields an infinity, the logarithm of zero yields `-inf`, the
logarithm of a negative number yields `NaN`, and `np.isinf` is false on
`NaN`.  We model such values with the type `FP` below: a finite real
number, one of the two infinities, or NaN.  Real (finite) inputs are kept
as plain reals; `FP` is used exactly where the code can produce or branch
on non-finite values.  The external eccentricity prior (`NewPrior`, an
external collaborator of this program) is modelled as an abstract function
parameter returning an `FP` value.
-/

open scoped Classical

noncomputable section

/-- IEEE-style value: finite real, positive infinity, negative infinity,
or NaN.  Negative zero is identified with zero, which is adequate for the
computations reachable in this program. -/
inductive FP where
  | fin : ℝ → FP
  | pinf : FP
  | ninf : FP
  | nan : FP

namespace FP

/-- IEEE addition: NaN absorbs, infinities of opposite signs give NaN. -/
def add : FP → FP → FP
  | nan, _ => nan
  | _, nan => nan
  | fin x, fin y => fin (x + y)
  | fin _, pinf => pinf
  | fin _, ninf => ninf
  | pinf, fin _ => pinf
  | pinf, pinf => pinf
  | pinf, ninf => nan
  | ninf, fin _ => ninf
  | ninf, pinf => nan
  | ninf, ninf => ninf

/-- IEEE multiplication: NaN absorbs, zero times an infinity gives NaN. -/
def mul : FP → FP → FP
  | nan, _ => nan
  | _, nan => nan
  | fin x, fin y => fin (x * y)
  | fin x, pinf => if 0 < x then pinf else if x < 0 then ninf else nan
  | fin x, ninf => if 0 < x then ninf else if x < 0 then pinf else nan
  | pinf, fin y => if 0 < y then pinf else if y < 0 then ninf else nan
  | ninf, fin y => if 0 < y then ninf else if y < 0 then pinf else nan
  | pinf, pinf => pinf
  | pinf, ninf => ninf
  | ninf, pinf => ninf
  | ninf, ninf => pinf

/-- IEEE division: a nonzero finite number divided by zero gives a signed
infinity, `0/0` and `inf/inf` give NaN. -/
def div : FP → FP → FP
  | nan, _ => nan
  | _, nan => nan
  | fin x, fin y =>
      if y = 0 then (if 0 < x then pinf else if x < 0 then ninf else nan)
      else fin (x / y)
  | fin _, pinf => fin 0
  | fin _, ninf => fin 0
  | pinf, fin y => if y < 0 then ninf else pinf
  | ninf, fin y => if y < 0 then pinf else ninf
  | pinf, pinf => nan
  | pinf, ninf => nan
  | ninf, pinf => nan
  | ninf, ninf => nan

/-- numpy square root: NaN on negative arguments. -/
def sqrt : FP → FP
  | nan => nan
  | ninf => nan
  | pinf => pinf
  | fin x => if x < 0 then nan else fin (Real.sqrt x)

/-- numpy logarithm: `-inf` at zero, NaN on negative arguments. -/
def log : FP → FP
  | nan => nan
  | ninf => nan
  | pinf => pinf
  | fin x => if x < 0 then nan else if x = 0 then ninf else fin (Real.log x)

/-- IEEE absolute value. -/
def abs : FP → FP
  | nan => nan
  | ninf => pinf
  | pinf => pinf
  | fin x => fin |x|

/-- IEEE comparison: NaN is incomparable with everything. -/
def lt : FP → FP → Prop
  | nan, _ => False
  | _, nan => False
  | fin x, fin y => x < y
  | fin _, pinf => True
  | fin _, ninf => False
  | pinf, _ => False
  | ninf, fin _ => True
  | ninf, pinf => True
  | ninf, ninf => False

/-- `np.isinf`: true exactly on the two infinities (false on NaN). -/
def isinf : FP → Bool
  | pinf => true
  | ninf => true
  | _ => false

end FP

/-- Interface type of the external eccentricity prior `NewPrior.get_logprior`
(an external collaborator, not part of this program): it receives the three
(time, frequency) centroid pairs and the five meta parameters and returns a
log-prior value. -/
abbrev EccPrior := List (ℝ × ℝ) → ℝ → ℝ → ℝ → ℝ → ℝ → FP

/-- Source `time_wavelet(times, ctime, cfreq, amp, Q, phi0)`: time-domain
Morlet-Gabor wavelet, `tau = Q/(2*pi*cfreq)`,
`psi = amp*exp(-dt**2/tau**2)*cos(2*pi*cfreq*dt+phi0)` evaluated at each
grid time. -/
def time_wavelet (times : List ℝ) (ctime cfreq amp Q phi0 : ℝ) : List ℝ :=
  let tau := Q / (2 * Real.pi * cfreq)
  times.map fun t =>
    amp * Real.exp (-(t - ctime) ^ 2 / tau ^ 2) *
      Real.cos (2 * Real.pi * cfreq * (t - ctime) + phi0)

/-- Source `get_snr(amp, cfreq, Q)`:
`SNR = amp*sqrt(Q)/sqrt(2*sqrt(pi*2)*cfreq)`.  The inner square root has
the positive argument `pi*2`, so it is a plain real square root; the outer
one can receive a negative argument and is an IEEE square root. -/
def get_snr (amp cfreq Q : ℝ) : FP :=
  FP.div (FP.mul (FP.fin amp) (FP.sqrt (FP.fin Q)))
    (FP.sqrt (FP.fin (2 * Real.sqrt (Real.pi * 2) * cfreq)))

/-- Source `get_logL(wavelet_model, wavelet_data)`:
`res = wavelet_data - wavelet_model`, `-0.5*sum(square(res))`. -/
def get_logL (wavelet_model wavelet_data : List ℝ) : ℝ :=
  let res := wavelet_data.zipWith (fun d m => d - m) wavelet_model;
  -0.5 * (res.map fun r => r ^ 2).sum

/-- Source `get_signal_logprior(amp, cfreq, Q)`:
`SNR = get_snr(amp, cfreq, Q)`, returns `log((3*SNR)/(4*(1+(SNR/4))))`. -/
def get_signal_logprior (amp cfreq Q : ℝ) : FP :=
  let SNR := get_snr amp cfreq Q
  FP.log (FP.div (FP.mul (FP.fin 3) SNR)
    (FP.mul (FP.fin 4) (FP.add (FP.fin 1) (FP.div SNR (FP.fin 4)))))

/-- The call `ep.get_logprior([[ts[0],fs[0]],[ts[1],fs[1]],[ts[2],fs[2]]],
*meta_params)` made by `get_logP_uniform` and `get_logP`, with the centroid
and meta components read off the 20-dimensional parameter vector at the
positional offsets used by the source. -/
def eccCall (ep : EccPrior) (p : Fin 20 → ℝ) : FP :=
  ep [(p 0, p 1), (p 5, p 6), (p 10, p 11)] (p 15) (p 16) (p 17) (p 18) (p 19)

/-- Source loop `for t in ts: if t < times[0] or t > times[-1]: return -inf`
over `ts = [wavelet_params[0], wavelet_params[5], wavelet_params[10]]`. -/
def timeOutOfBounds (p : Fin 20 → ℝ) (times : List ℝ) : Prop :=
  ∃ t ∈ [p 0, p 5, p 10], t < times.getD 0 0 ∨ (times.getLast?).getD 0 < t

/-- The frequency lower bound `abs(1/times[0])` of the source, an IEEE
value: `+inf` when `times[0] == 0`. -/
def freqLow (times : List ℝ) : FP :=
  FP.abs (FP.div (FP.fin 1) (FP.fin (times.getD 0 0)))

/-- The frequency upper bound `dt_inv/2` of the source, where
`dt_inv = 1/(times[1]-times[0])`; an IEEE value: `+inf` when the first two
grid points coincide. -/
def freqHigh (times : List ℝ) : FP :=
  FP.div (FP.div (FP.fin 1) (FP.fin (times.getD 1 0 - times.getD 0 0)))
    (FP.fin 2)

/-- Source loop `for f in fs: if f < abs(1/times[0]) or f > (dt_inv/2):
return -inf` over `fs = [wavelet_params[1], wavelet_params[6],
wavelet_params[11]]`, with IEEE comparisons. -/
def freqOutOfBounds (p : Fin 20 → ℝ) (times : List ℝ) : Prop :=
  ∃ f ∈ [p 1, p 6, p 11],
    FP.lt (FP.fin f) (freqLow times) ∨ FP.lt (freqHigh times) (FP.fin f)

/-- Source loop `for q in Qs: if q < 1: return -inf` over
`Qs = [wavelet_params[3], wavelet_params[8], wavelet_params[13]]`. -/
def qualityOutOfBounds (p : Fin 20 → ℝ) : Prop :=
  ∃ q ∈ [p 3, p 8, p 13], q < 1

/-- Source loop `for a in amps: if a < 0: return -inf` over
`amps = [wavelet_params[2], wavelet_params[7], wavelet_params[12]]`. -/
def ampOutOfBounds (p : Fin 20 → ℝ) : Prop :=
  ∃ a ∈ [p 2, p 7, p 12], a < 0

/-- Source loop `for phi in phis: if phi < -pi or phi > pi: return -inf`
over `phis = [wavelet_params[4], wavelet_params[9], wavelet_params[14]]`. -/
def phaseOutOfBounds (p : Fin 20 → ℝ) : Prop :=
  ∃ phi ∈ [p 4, p 9, p 14], phi < -Real.pi ∨ Real.pi < phi

/-- Source `get_logP_uniform(wavelet_params, times)`: the bounds and
validity filter.  Checks run in source order, each failing one
short-circuiting to `-inf`; finally the external eccentricity prior is
consulted and its value returned if infinite, else `0`. -/
def get_logP_uniform (p : Fin 20 → ℝ) (times : List ℝ) (ep : EccPrior) : FP :=
  if timeOutOfBounds p times then FP.ninf
  else if freqOutOfBounds p times then FP.ninf
  else if qualityOutOfBounds p then FP.ninf
  else if ampOutOfBounds p then FP.ninf
  else if phaseOutOfBounds p then FP.ninf
  else if (eccCall ep p).isinf then eccCall ep p else FP.fin 0

/-- The loop `wavelet_model = 0; wavelet_model += time_wavelet(times, t,
fs[i], amps[i], Qs[i], phis[i])` of `get_logP`: the elementwise sum
`(w1 + w2) + w3` of the three wavelets read off the parameter vector. -/
def compositeModel (p : Fin 20 → ℝ) (times : List ℝ) : List ℝ :=
  ((time_wavelet times (p 0) (p 1) (p 2) (p 3) (p 4)).zipWith
      (fun a b => a + b)
      (time_wavelet times (p 5) (p 6) (p 7) (p 8) (p 9))).zipWith
    (fun a b => a + b)
    (time_wavelet times (p 10) (p 11) (p 12) (p 13) (p 14))

/-- The accumulation `log_sig_prior = 0 + s1 + s2 + s3` of the three signal
amplitude log-priors in `get_logP`, with the source argument order
`get_signal_logprior(amps[i], fs[i], Qs[i])`. -/
def sigPriorSum (p : Fin 20 → ℝ) : FP :=
  FP.add (FP.add (FP.add (FP.fin 0)
    (get_signal_logprior (p 2) (p 1) (p 3)))
    (get_signal_logprior (p 7) (p 6) (p 8)))
    (get_signal_logprior (p 12) (p 11) (p 13))

/-- Source `get_logP(wavelet_params, times, wavelet_data)`: the posterior
evaluator.  If the bounds filter gives an infinite value it is returned
directly; otherwise the result is
`log_like + log_sig_prior + log_ecc` with `log_like` the Gaussian
log-likelihood of the composite model against the data. -/
def get_logP (p : Fin 20 → ℝ) (times wavelet_data : List ℝ)
    (ep : EccPrior) : FP :=
  if (get_logP_uniform p times ep).isinf then get_logP_uniform p times ep
  else
    FP.add (FP.add (FP.fin (get_logL (compositeModel p times) wavelet_data))
      (sigPriorSum p)) (eccCall ep p)

/-- Source `x_sigma`: the fixed per-dimension perturbation scales of the
walker initializer. -/
def x_sigma : List ℝ :=
  [0.01, 1, 1, 0.1, 0.2, 0.01, 1, 1, 0.1, 0.2, 0.01, 1, 1, 0.1, 0.2,
   1, 0.5, 0.01, 0.01, 1]

/-- One candidate walker `wavelet_params + x_sigma*randn(dim)` of `start_loc`,
where `z` is the vector drawn by `np.random.randn(dim)`. -/
def perturb (wavelet_params : Fin 20 → ℝ) (z : Fin 20 → ℝ) : Fin 20 → ℝ :=
  fun j => wavelet_params j + x_sigma.getD j 0 * z j

/-- The `while np.isinf(lp)` resampling loop of `start_loc`, for one walker:
the current candidate `x` is kept as soon as its log-posterior is not
infinite, otherwise a fresh candidate is drawn from the random stream `g`
at counter `k`.  The Python loop is unbounded; `fuel` bounds the number of
redraws, and any value the Python loop returns is produced here for a large
enough `fuel`.  Returns the accepted walker and the next counter. -/
def resampleWalker (wavelet_params : Fin 20 → ℝ) (times wavelet_data : List ℝ)
    (ep : EccPrior) (g : ℕ → Fin 20 → ℝ) :
    ℕ → (Fin 20 → ℝ) → ℕ → Option ((Fin 20 → ℝ) × ℕ)
  | 0, x, k =>
      if (get_logP x times wavelet_data ep).isinf then none else some (x, k)
  | fuel + 1, x, k =>
      if (get_logP x times wavelet_data ep).isinf then
        resampleWalker wavelet_params times wavelet_data ep g fuel
          (perturb wavelet_params (g k)) (k + 1)
      else some (x, k)

/-- The `for i,x in enumerate(x0)` loop of `start_loc`, replacing each
initial candidate by an accepted one while threading the random counter. -/
def startLocGo (wavelet_params : Fin 20 → ℝ) (times wavelet_data : List ℝ)
    (ep : EccPrior) (g : ℕ → Fin 20 → ℝ) (fuel : ℕ) :
    List (Fin 20 → ℝ) → ℕ → Option (List (Fin 20 → ℝ))
  | [], _ => some []
  | x :: rest, k =>
      match resampleWalker wavelet_params times wavelet_data ep g fuel x k with
      | none => none
      | some (y, k2) =>
          match startLocGo wavelet_params times wavelet_data ep g fuel rest k2 with
          | none => none
          | some l => some (y :: l)

/-- Source `start_loc(wavelet_params, nwalkers, dim, times, wavelet_data)`
with `dim = 20`: draws `nwalkers` initial candidates
`wavelet_params + x_sigma*randn(dim)` (consuming the random stream `g` at
counters `0..nwalkers-1`), then resamples each until its log-posterior is
not infinite.  The unbounded rejection loop is bounded by `fuel` per
walker. -/
def start_loc (wavelet_params : Fin 20 → ℝ) (nwalkers : ℕ)
    (times wavelet_data : List ℝ) (ep : EccPrior) (g : ℕ → Fin 20 → ℝ)
    (fuel : ℕ) : Option (List (Fin 20 → ℝ)) :=
  let x0 := (List.range nwalkers).map fun i => perturb wavelet_params (g i)
  startLocGo wavelet_params times wavelet_data ep g fuel x0 nwalkers

/-- Builds a 20-dimensional parameter vector from a 5-element pattern
`(centroid time, centroid frequency, amplitude, quality factor, phase)`
repeated for the three wavelets (the meta entries, positions 15-19, also
cycle through the pattern; they are unconstrained by the local checks). -/
def cyc5 (l : List ℝ) : Fin 20 → ℝ := fun i => l.getD (i.val % 5) 0

/-- Concrete in-bounds parameter vector used by witnesses: each wavelet has
centroid time 1, frequency 1, amplitude 1, quality factor 1, phase 0. -/
def pg : Fin 20 → ℝ := cyc5 [1, 1, 1, 1, 0]

/-- Concrete parameter vector with every frequency exactly at the Nyquist
frequency 2 of the grid `tw`. -/
def pNy : Fin 20 → ℝ := cyc5 [1, 2, 1, 1, 0]

/-- Concrete parameter vector with every frequency strictly above the
Nyquist frequency 2 of the grid `tw`. -/
def pNyAbove : Fin 20 → ℝ := cyc5 [1, 3, 1, 1, 0]

/-- Concrete two-sample time grid: spacing 1/4, Nyquist frequency 2,
frequency lower bound `|1/1| = 1`. -/
def tw : List ℝ := [1, 5 / 4]

/-- Concrete time grid whose first sample is 0. -/
def tz : List ℝ := [0, 1]

/-- Concrete data vector. -/
def dw : List ℝ := [0, 0]

/-- Concrete external prior that always returns the finite value 0. -/
def epz : EccPrior := fun _ _ _ _ _ _ => FP.fin 0

/-- Concrete external prior that always returns NaN. -/
def epn : EccPrior := fun _ _ _ _ _ _ => FP.nan

/-- Concrete random stream drawing only zeros. -/
def gz : ℕ → Fin 20 → ℝ := fun _ _ => 0

namespace FP

@[simp] lemma add_fin_fin (x y : ℝ) : add (fin x) (fin y) = fin (x + y) := rfl

@[simp] lemma add_fin_ninf (x : ℝ) : add (fin x) ninf = ninf := rfl

@[simp] lemma add_ninf_fin (x : ℝ) : add ninf (fin x) = ninf := rfl

@[simp] lemma add_ninf_ninf : add ninf ninf = ninf := rfl

@[simp] lemma add_nan_left (a : FP) : add nan a = nan := by cases a <;> rfl

@[simp] lemma add_nan_right (a : FP) : add a nan = nan := by cases a <;> rfl

/-- Adding a finite zero on the left is the identity. -/
@[simp] lemma add_fin_zero_left (a : FP) : add (fin 0) a = a := by
  cases a <;> simp [add]

@[simp] lemma mul_fin_fin (x y : ℝ) : mul (fin x) (fin y) = fin (x * y) := rfl

lemma div_fin_fin_of_ne (x y : ℝ) (h : y ≠ 0) :
    div (fin x) (fin y) = fin (x / y) := by
  simp [div, h]

lemma div_fin_zero_of_pos (x : ℝ) (h : 0 < x) :
    div (fin x) (fin 0) = pinf := by
  simp [div, h]

lemma div_fin_zero_of_neg (x : ℝ) (h : x < 0) :
    div (fin x) (fin 0) = ninf := by
  simp [div, h, asymm h]

lemma sqrt_fin_of_nonneg (x : ℝ) (h : 0 ≤ x) :
    sqrt (fin x) = fin (Real.sqrt x) := by
  simp [sqrt, not_lt.mpr h]

lemma log_fin_of_pos (x : ℝ) (h : 0 < x) :
    log (fin x) = fin (Real.log x) := by
  simp [log, not_lt.mpr h.le, h.ne']

@[simp] lemma log_fin_zero : log (fin 0) = ninf := by simp [log]

lemma log_fin_of_neg (x : ℝ) (h : x < 0) : log (fin x) = nan := by
  simp [log, h]

@[simp] lemma log_ninf : log ninf = nan := rfl

@[simp] lemma abs_fin (x : ℝ) : abs (fin x) = fin |x| := rfl

@[simp] lemma abs_pinf : abs pinf = pinf := rfl

@[simp] lemma lt_fin_fin (x y : ℝ) : lt (fin x) (fin y) ↔ x < y := Iff.rfl

@[simp] lemma lt_fin_pinf (x : ℝ) : lt (fin x) pinf := trivial

@[simp] lemma not_lt_pinf_fin (x : ℝ) : ¬ lt pinf (fin x) := fun h => h

@[simp] lemma isinf_fin (x : ℝ) : isinf (fin x) = false := rfl

@[simp] lemma isinf_pinf : isinf pinf = true := rfl

@[simp] lemma isinf_ninf : isinf ninf = true := rfl

@[simp] lemma isinf_nan : isinf nan = false := rfl

/-- A value whose `isinf` is true is one of the two infinities. -/
lemma eq_of_isinf_true {a : FP} (h : isinf a = true) : a = pinf ∨ a = ninf := by
  cases a with
  | fin x => simp [isinf] at h
  | pinf => exact Or.inl rfl
  | ninf => exact Or.inr rfl
  | nan => simp [isinf] at h

/-- Adding values that are each `-inf` or finite yields `-inf` or a finite
value (no NaN can appear). -/
lemma add_ninf_or_fin {a b : FP} (ha : a = ninf ∨ ∃ x, a = fin x)
    (hb : b = ninf ∨ ∃ x, b = fin x) :
    add a b = ninf ∨ ∃ x, add a b = fin x := by
  rcases ha with rfl | ⟨x, rfl⟩ <;> rcases hb with rfl | ⟨y, rfl⟩
  · exact Or.inl rfl
  · exact Or.inl rfl
  · exact Or.inl rfl
  · exact Or.inr ⟨x + y, rfl⟩

end FP

/-- The sum of the squares of the entries of a real list is nonnegative. -/
lemma sum_map_sq_nonneg (l : List ℝ) : 0 ≤ (l.map fun r => r ^ 2).sum := by
  induction l with
  | nil => simp
  | cons a t ih => simpa using add_nonneg (sq_nonneg a) ih

/-- The sum of the squares of the entries of a real list vanishes exactly
when every entry vanishes. -/
lemma sum_map_sq_eq_zero_iff (l : List ℝ) :
    (l.map fun r => r ^ 2).sum = 0 ↔ ∀ x ∈ l, x = 0 := by
  induction l with
  | nil => simp
  | cons a t ih =>
    simp only [List.map_cons, List.sum_cons, List.mem_cons]
    constructor
    · intro h
      have h1 : a ^ 2 = 0 ∧ (t.map fun r => r ^ 2).sum = 0 :=
        (add_eq_zero_iff_of_nonneg (sq_nonneg a) (sum_map_sq_nonneg t)).mp h
      have ha : a = 0 := by
        have := h1.1
        nlinarith [this]
      intro x hx
      rcases hx with rfl | hx
      · exact ha
      · exact (ih.mp h1.2) x hx
    · intro h
      have ha : a = 0 := h a (Or.inl rfl)
      have ht : (t.map fun r => r ^ 2).sum = 0 :=
        ih.mpr fun x hx => h x (Or.inr hx)
      simp [ha, ht]

/-- The elementwise residuals of two equal-length lists all vanish exactly
when the lists are equal. -/
lemma zipWith_sub_all_zero_iff :
    ∀ (model data : List ℝ), model.length = data.length →
      ((∀ x ∈ data.zipWith (fun d m => d - m) model, x = 0) ↔ data = model)
  | [], [], _ => by simp
  | [], _ :: _, h => by simp at h
  | _ :: _, [], h => by simp at h
  | m :: ms, d :: ds, h => by
    have hlen : ms.length = ds.length := by simpa using h
    simp only [List.zipWith_cons_cons, List.mem_cons, List.cons.injEq]
    constructor
    · intro hz
      have h1 : d - m = 0 := hz _ (Or.inl rfl)
      have h2 : ds = ms := (zipWith_sub_all_zero_iff ms ds hlen).mp
        fun x hx => hz x (Or.inr hx)
      exact ⟨by linarith, h2⟩
    · rintro ⟨h1, h2⟩ x hx
      rcases hx with rfl | hx
      · rw [h1]; ring
      · exact ((zipWith_sub_all_zero_iff ms ds hlen).mpr h2) x hx

/-- C4: for equal-length `model` and `data` vectors, `get_logL` returns
`-0.5` times the sum of the squared residuals `data - model`; consequently
it is always `≤ 0`, vanishes exactly when the data equals the model
elementwise, and is strictly smaller for any pair with a strictly larger
residual sum of squares. -/
theorem C4_likelihood (model data : List ℝ) (h : model.length = data.length) :
    get_logL model data =
      -0.5 * ((data.zipWith (fun d m => d - m) model).map fun r => r ^ 2).sum ∧
    get_logL model data ≤ 0 ∧
    (get_logL model data = 0 ↔ data = model) ∧
    ∀ model2 data2 : List ℝ, model2.length = data2.length →
      ((data.zipWith (fun d m => d - m) model).map fun r => r ^ 2).sum <
        ((data2.zipWith (fun d m => d - m) model2).map fun r => r ^ 2).sum →
      get_logL model2 data2 < get_logL model data := by
  have h0 : get_logL model data =
      -0.5 * ((data.zipWith (fun d m => d - m) model).map fun r => r ^ 2).sum :=
    rfl
  have hS := sum_map_sq_nonneg (data.zipWith (fun d m => d - m) model)
  refine ⟨h0, ?_, ?_, ?_⟩
  · rw [h0]; linarith
  · rw [h0]
    constructor
    · intro hz
      have hsum : ((data.zipWith (fun d m => d - m) model).map
          fun r => r ^ 2).sum = 0 := by linarith
      exact (zipWith_sub_all_zero_iff model data h).mp
        ((sum_map_sq_eq_zero_iff _).mp hsum)
    · intro hdm
      have hsum : ((data.zipWith (fun d m => d - m) model).map
          fun r => r ^ 2).sum = 0 :=
        (sum_map_sq_eq_zero_iff _).mpr
          ((zipWith_sub_all_zero_iff model data h).mpr hdm)
      rw [hsum]; ring
  · intro model2 data2 _ hlt
    have h02 : get_logL model2 data2 =
        -0.5 * ((data2.zipWith (fun d m => d - m) model2).map
          fun r => r ^ 2).sum := rfl
    rw [h0, h02]; linarith

/-- Witness for C4 at the concrete equal pair `model = data = [1, 2]`. -/
theorem C4_likelihood_witness :
    ([(1 : ℝ), 2].length = [(1 : ℝ), 2].length) ∧
    (get_logL [(1 : ℝ), 2] [(1 : ℝ), 2] = 0 ↔ ([(1 : ℝ), 2] : List ℝ) = [1, 2]) :=
  ⟨rfl, (C4_likelihood [(1 : ℝ), 2] [1, 2] rfl).2.2.1⟩

/-- For a positive frequency and a nonnegative quality factor, `get_snr`
is the finite real value `amp*sqrt(Q)/sqrt(2*sqrt(pi*2)*cfreq)`. -/
lemma get_snr_eq_fin (amp cfreq Q : ℝ) (hf : 0 < cfreq) (hQ : 0 ≤ Q) :
    get_snr amp cfreq Q =
      FP.fin (amp * Real.sqrt Q / Real.sqrt (2 * Real.sqrt (Real.pi * 2) * cfreq)) := by
  have hs : (0 : ℝ) < Real.sqrt (Real.pi * 2) :=
    Real.sqrt_pos.mpr (by positivity)
  have hd : (0 : ℝ) < 2 * Real.sqrt (Real.pi * 2) * cfreq := by positivity
  have hds : Real.sqrt (2 * Real.sqrt (Real.pi * 2) * cfreq) ≠ 0 :=
    (Real.sqrt_pos.mpr hd).ne'
  rw [get_snr, FP.sqrt_fin_of_nonneg _ hQ, FP.sqrt_fin_of_nonneg _ hd.le,
    FP.mul_fin_fin, FP.div_fin_fin_of_ne _ _ hds]

/-- When the SNR is the finite positive value `s`, the signal amplitude
prior is the finite value `log(3*s/(4*(1+s/4)))`. -/
lemma signal_logprior_of_snr_pos (amp cfreq Q s : ℝ)
    (h : get_snr amp cfreq Q = FP.fin s) (hs : 0 < s) :
    get_signal_logprior amp cfreq Q =
      FP.fin (Real.log (3 * s / (4 * (1 + s / 4)))) := by
  have h4 : (4 : ℝ) ≠ 0 := by norm_num
  have hden : (0 : ℝ) < 4 * (1 + s / 4) := by nlinarith
  have harg : (0 : ℝ) < 3 * s / (4 * (1 + s / 4)) := by positivity
  rw [get_signal_logprior]
  rw [h, FP.div_fin_fin_of_ne _ _ h4, FP.add_fin_fin, FP.mul_fin_fin,
    FP.mul_fin_fin, FP.div_fin_fin_of_ne _ _ hden.ne',
    FP.log_fin_of_pos _ harg]

/-- When the SNR is exactly zero, the signal amplitude prior is `-inf`
(`log 0`). -/
lemma signal_logprior_of_snr_zero (amp cfreq Q : ℝ)
    (h : get_snr amp cfreq Q = FP.fin 0) :
    get_signal_logprior amp cfreq Q = FP.ninf := by
  have h4 : (4 : ℝ) ≠ 0 := by norm_num
  have hden : (4 : ℝ) * (1 + 0 / 4) ≠ 0 := by norm_num
  rw [get_signal_logprior]
  rw [h, FP.div_fin_fin_of_ne _ _ h4, FP.add_fin_fin, FP.mul_fin_fin,
    FP.mul_fin_fin, FP.div_fin_fin_of_ne _ _ hden]
  norm_num

/-- When the SNR is a finite value in `[-4, 0)`, the signal amplitude prior
is NaN: for `s = -4` the prior argument is `-12/0 = -inf` and `log(-inf)`
is NaN, for `-4 < s < 0` the prior argument is negative and its logarithm
is NaN. -/
lemma signal_logprior_of_snr_neg_ge (amp cfreq Q s : ℝ)
    (h : get_snr amp cfreq Q = FP.fin s) (hs : s < 0) (h4 : -4 ≤ s) :
    get_signal_logprior amp cfreq Q = FP.nan := by
  have hne : (4 : ℝ) ≠ 0 := by norm_num
  rw [get_signal_logprior]
  rw [h, FP.div_fin_fin_of_ne _ _ hne, FP.add_fin_fin, FP.mul_fin_fin,
    FP.mul_fin_fin]
  rcases eq_or_lt_of_le h4 with h4e | h4lt
  · have hden : (4 : ℝ) * (1 + s / 4) = 0 := by rw [← h4e]; norm_num
    have hnum : 3 * s < 0 := by linarith
    rw [hden, FP.div_fin_zero_of_neg _ hnum, FP.log_ninf]
  · have hden : (0 : ℝ) < 4 * (1 + s / 4) := by nlinarith
    have harg : 3 * s / (4 * (1 + s / 4)) < 0 :=
      div_neg_of_neg_of_pos (by linarith) hden
    rw [FP.div_fin_fin_of_ne _ _ hden.ne', FP.log_fin_of_neg _ harg]

/-- When the SNR is a finite value strictly below `-4`, the prior argument
`3*s/(4*(1+s/4))` is a ratio of two negative numbers, hence positive, and
the signal amplitude prior is finite (not NaN and not `-inf`). -/
lemma signal_logprior_of_snr_lt_neg4 (amp cfreq Q s : ℝ)
    (h : get_snr amp cfreq Q = FP.fin s) (hs : s < -4) :
    get_signal_logprior amp cfreq Q =
      FP.fin (Real.log (3 * s / (4 * (1 + s / 4)))) := by
  have hne : (4 : ℝ) ≠ 0 := by norm_num
  have hden : 4 * (1 + s / 4) < 0 := by nlinarith
  have harg : (0 : ℝ) < 3 * s / (4 * (1 + s / 4)) :=
    div_pos_of_neg_of_neg (by linarith) hden
  rw [get_signal_logprior]
  rw [h, FP.div_fin_fin_of_ne _ _ hne, FP.add_fin_fin, FP.mul_fin_fin,
    FP.mul_fin_fin, FP.div_fin_fin_of_ne _ _ hden.ne,
    FP.log_fin_of_pos _ harg]

/-- C6: for `A > 0`, `f0 > 0`, `Q ≥ 1`, the signal amplitude prior returns
`log(3*SNR/(4*(1+SNR/4)))` where `SNR = A*sqrt(Q)/sqrt(2*sqrt(2*pi)*f0)` is
the per-wavelet signal-to-noise ratio computed by `get_snr`. -/
theorem C6_signal_prior (amp cfreq Q : ℝ)
    (hA : 0 < amp) (hf : 0 < cfreq) (hQ : 1 ≤ Q) :
    get_snr amp cfreq Q =
      FP.fin (amp * Real.sqrt Q /
        Real.sqrt (2 * Real.sqrt (2 * Real.pi) * cfreq)) ∧
    get_signal_logprior amp cfreq Q =
      FP.fin (Real.log
        (3 * (amp * Real.sqrt Q / Real.sqrt (2 * Real.sqrt (2 * Real.pi) * cfreq)) /
          (4 * (1 + amp * Real.sqrt Q /
            Real.sqrt (2 * Real.sqrt (2 * Real.pi) * cfreq) / 4)))) := by
  have hcomm : (2 : ℝ) * Real.pi = Real.pi * 2 := mul_comm _ _
  have h1 : get_snr amp cfreq Q =
      FP.fin (amp * Real.sqrt Q /
        Real.sqrt (2 * Real.sqrt (2 * Real.pi) * cfreq)) := by
    rw [hcomm]; exact get_snr_eq_fin amp cfreq Q hf (by linarith)
  have hQ0 : (0 : ℝ) < Real.sqrt Q := Real.sqrt_pos.mpr (by linarith)
  have hd0 : (0 : ℝ) < Real.sqrt (2 * Real.sqrt (2 * Real.pi) * cfreq) := by
    apply Real.sqrt_pos.mpr
    have : (0 : ℝ) < Real.sqrt (2 * Real.pi) :=
      Real.sqrt_pos.mpr (by positivity)
    positivity
  have hspos : 0 < amp * Real.sqrt Q /
      Real.sqrt (2 * Real.sqrt (2 * Real.pi) * cfreq) := by positivity
  exact ⟨h1, signal_logprior_of_snr_pos _ _ _ _ h1 hspos⟩

/-- Witness for C6 at `A = 1`, `f0 = 1`, `Q = 1`. -/
theorem C6_signal_prior_witness :
    (0 : ℝ) < 1 ∧
    get_signal_logprior 1 1 1 =
      FP.fin (Real.log
        (3 * (1 * Real.sqrt 1 / Real.sqrt (2 * Real.sqrt (2 * Real.pi) * 1)) /
          (4 * (1 + 1 * Real.sqrt 1 /
            Real.sqrt (2 * Real.sqrt (2 * Real.pi) * 1) / 4)))) :=
  ⟨one_pos, (C6_signal_prior 1 1 1 one_pos one_pos (le_refl 1)).2⟩

/-- C8 counterexample: at `amp = -8`, `cfreq = 1/(2*sqrt(pi*2))`, `Q = 1`,
the SNR computed by `get_snr` is the finite value `-8 < 0`, yet
`get_signal_logprior` returns the finite value `log 6`, not NaN, refuting
the part of the claim that asserts NaN for every negative SNR. -/
theorem C8_counterexample :
    get_snr (-8) (1 / (2 * Real.sqrt (Real.pi * 2))) 1 = FP.fin (-8) ∧
    ((-8 : ℝ) < 0) ∧
    get_signal_logprior (-8) (1 / (2 * Real.sqrt (Real.pi * 2))) 1 =
      FP.fin (Real.log 6) ∧
    FP.fin (Real.log 6) ≠ FP.nan := by
  have hs2 : (0 : ℝ) < Real.sqrt (Real.pi * 2) :=
    Real.sqrt_pos.mpr (by positivity)
  have hf : (0 : ℝ) < 1 / (2 * Real.sqrt (Real.pi * 2)) := by positivity
  have harg : 2 * Real.sqrt (Real.pi * 2) *
      (1 / (2 * Real.sqrt (Real.pi * 2))) = 1 := by
    field_simp
  have h1 : get_snr (-8) (1 / (2 * Real.sqrt (Real.pi * 2))) 1 =
      FP.fin (-8) := by
    rw [get_snr_eq_fin _ _ _ hf (by norm_num), harg, Real.sqrt_one]
    norm_num
  have h2 := signal_logprior_of_snr_lt_neg4 _ _ _ _ h1 (by norm_num)
  have h3 : (3 * (-8 : ℝ) / (4 * (1 + (-8 : ℝ) / 4))) = 6 := by norm_num
  rw [h3] at h2
  exact ⟨h1, by norm_num, h2, fun hcon => FP.noConfusion hcon⟩

/-- C8 amended: when `get_snr` returns the finite value `s`: if `s = 0` the
signal amplitude prior is `-inf`; if `s < 0` it is NaN exactly when
`-4 ≤ s`, while for `s < -4` it is the finite value
`log(3*s/(4*(1+s/4)))`.  (The original claim asserted NaN for every
`s < 0`.)  In every case a value is returned and propagates upward; no
exception is raised. -/
theorem C8_signal_prior_degenerate (amp cfreq Q s : ℝ)
    (h : get_snr amp cfreq Q = FP.fin s) :
    (s = 0 → get_signal_logprior amp cfreq Q = FP.ninf) ∧
    (s < 0 → get_signal_logprior amp cfreq Q =
      if -4 ≤ s then FP.nan
      else FP.fin (Real.log (3 * s / (4 * (1 + s / 4))))) := by
  constructor
  · intro hs; subst hs; exact signal_logprior_of_snr_zero _ _ _ h
  · intro hs
    by_cases h4 : -4 ≤ s
    · rw [if_pos h4]; exact signal_logprior_of_snr_neg_ge _ _ _ _ h hs h4
    · rw [if_neg h4]
      exact signal_logprior_of_snr_lt_neg4 _ _ _ _ h (not_le.mp h4)

/-- Witness for the amended C8 at `amp = 0`, `cfreq = 1`, `Q = 1`, where the
SNR is zero and the prior is `-inf`. -/
theorem C8_signal_prior_degenerate_witness :
    get_snr 0 1 1 = FP.fin 0 ∧ get_signal_logprior 0 1 1 = FP.ninf := by
  have h : get_snr 0 1 1 = FP.fin 0 := by
    rw [get_snr_eq_fin 0 1 1 one_pos (by norm_num)]
    simp
  exact ⟨h, (C8_signal_prior_degenerate 0 1 1 0 h).1 rfl⟩

/-- With a nonzero first grid time, the frequency lower bound is the finite
value `|1/times[0]|`. -/
lemma freqLow_eq (times : List ℝ) (h : times.getD 0 0 ≠ 0) :
    freqLow times = FP.fin |1 / times.getD 0 0| := by
  rw [freqLow, FP.div_fin_fin_of_ne _ _ h, FP.abs_fin]

/-- With a zero first grid time, the IEEE evaluation of the frequency lower
bound `abs(1/times[0])` is `+inf`, without an exception. -/
lemma freqLow_pinf (times : List ℝ) (h : times.getD 0 0 = 0) :
    freqLow times = FP.pinf := by
  rw [freqLow, h, FP.div_fin_zero_of_pos _ one_pos, FP.abs_pinf]

/-- With distinct first two grid times, the frequency upper bound is the
finite Nyquist value `1/(2*(times[1]-times[0]))`. -/
lemma freqHigh_eq (times : List ℝ) (h : times.getD 1 0 - times.getD 0 0 ≠ 0) :
    freqHigh times = FP.fin (1 / (2 * (times.getD 1 0 - times.getD 0 0))) := by
  rw [freqHigh, FP.div_fin_fin_of_ne _ _ h,
    FP.div_fin_fin_of_ne _ _ (two_ne_zero), div_div,
    mul_comm (times.getD 1 0 - times.getD 0 0) 2]

/-- If all five local bound checks pass, the filter defers to the
eccentricity prior. -/
lemma uniform_of_checks_pass (p : Fin 20 → ℝ) (times : List ℝ) (ep : EccPrior)
    (h1 : ¬ timeOutOfBounds p times) (h2 : ¬ freqOutOfBounds p times)
    (h3 : ¬ qualityOutOfBounds p) (h4 : ¬ ampOutOfBounds p)
    (h5 : ¬ phaseOutOfBounds p) :
    get_logP_uniform p times ep =
      if (eccCall ep p).isinf then eccCall ep p else FP.fin 0 := by
  unfold get_logP_uniform
  rw [if_neg h1, if_neg h2, if_neg h3, if_neg h4, if_neg h5]

/-- If one of the five local checks fails, the filter returns `-inf`
whatever the eccentricity prior value is (the prior is not consulted). -/
lemma uniform_ninf_of_local (p : Fin 20 → ℝ) (times : List ℝ) (ep : EccPrior)
    (h : timeOutOfBounds p times ∨ freqOutOfBounds p times ∨
      qualityOutOfBounds p ∨ ampOutOfBounds p ∨ phaseOutOfBounds p) :
    get_logP_uniform p times ep = FP.ninf := by
  unfold get_logP_uniform
  split_ifs <;> first | rfl | tauto

/-- The filter only ever returns `-inf`, the eccentricity prior value (and
then only when that value is infinite), or `0`. -/
lemma uniform_shape (p : Fin 20 → ℝ) (times : List ℝ) (ep : EccPrior) :
    get_logP_uniform p times ep = FP.ninf ∨
    (get_logP_uniform p times ep = eccCall ep p ∧
      (eccCall ep p).isinf = true) ∨
    get_logP_uniform p times ep = FP.fin 0 := by
  unfold get_logP_uniform
  split_ifs with a1 a2 a3 a4 a5 a6
  · exact Or.inl rfl
  · exact Or.inl rfl
  · exact Or.inl rfl
  · exact Or.inl rfl
  · exact Or.inl rfl
  · exact Or.inr (Or.inl ⟨rfl, a6⟩)
  · exact Or.inr (Or.inr rfl)

/-- A non-infinite filter value is exactly `0`. -/
lemma uniform_not_isinf_eq_zero (p : Fin 20 → ℝ) (times : List ℝ)
    (ep : EccPrior) (h : (get_logP_uniform p times ep).isinf = false) :
    get_logP_uniform p times ep = FP.fin 0 := by
  rcases uniform_shape p times ep with h1 | ⟨h1, h2⟩ | h1
  · rw [h1] at h; cases h
  · rw [h1] at h; exact Bool.noConfusion (h2.symm.trans h)
  · exact h1

/-- A filter value of `0` means every local check passed and the
eccentricity prior value is not infinite. -/
lemma uniform_eq_zero_checks (p : Fin 20 → ℝ) (times : List ℝ) (ep : EccPrior)
    (h : get_logP_uniform p times ep = FP.fin 0) :
    ¬ timeOutOfBounds p times ∧ ¬ freqOutOfBounds p times ∧
    ¬ qualityOutOfBounds p ∧ ¬ ampOutOfBounds p ∧ ¬ phaseOutOfBounds p ∧
    (eccCall ep p).isinf = false := by
  unfold get_logP_uniform at h
  split_ifs at h with a1 a2 a3 a4 a5 a6
  · rw [h] at a6; simp at a6
  · exact ⟨a1, a2, a3, a4, a5, by simpa using a6⟩

/-- When the filter returns `0`, each wavelet frequency is positive, each
amplitude nonnegative, and each quality factor at least 1. -/
lemma uniform_zero_params (p : Fin 20 → ℝ) (times : List ℝ) (ep : EccPrior)
    (h : get_logP_uniform p times ep = FP.fin 0) :
    (0 < p 1 ∧ 0 < p 6 ∧ 0 < p 11) ∧
    (0 ≤ p 2 ∧ 0 ≤ p 7 ∧ 0 ≤ p 12) ∧
    (1 ≤ p 3 ∧ 1 ≤ p 8 ∧ 1 ≤ p 13) := by
  obtain ⟨hT, hF, hQ, hA, hP, hE⟩ := uniform_eq_zero_checks p times ep h
  have ht0 : times.getD 0 0 ≠ 0 := by
    intro h0
    refine hF ⟨p 1, by simp, Or.inl ?_⟩
    rw [freqLow_pinf times h0]
    exact FP.lt_fin_pinf (p 1)
  have hlow := freqLow_eq times ht0
  have habs : 0 < |1 / times.getD 0 0| := abs_pos.mpr (one_div_ne_zero ht0)
  have hfreq : ∀ f ∈ [p 1, p 6, p 11], 0 < f := by
    intro f hf'
    have hnn : ¬ FP.lt (FP.fin f) (freqLow times) :=
      fun hc => hF ⟨f, hf', Or.inl hc⟩
    rw [hlow, FP.lt_fin_fin] at hnn
    linarith [not_lt.mp hnn]
  have hamp : ∀ a ∈ [p 2, p 7, p 12], 0 ≤ a := by
    intro a ha
    by_contra hlt
    exact hA ⟨a, ha, not_le.mp hlt⟩
  have hqual : ∀ q ∈ [p 3, p 8, p 13], 1 ≤ q := by
    intro q hq
    by_contra hlt
    exact hQ ⟨q, hq, not_le.mp hlt⟩
  refine ⟨⟨hfreq _ ?_, hfreq _ ?_, hfreq _ ?_⟩,
    ⟨hamp _ ?_, hamp _ ?_, hamp _ ?_⟩,
    ⟨hqual _ ?_, hqual _ ?_, hqual _ ?_⟩⟩ <;> simp

/-- When the bounds filter value is infinite, `get_logP` returns it for
every data vector: the likelihood, the signal priors and the composite
model do not enter the result. -/
lemma logP_eq_uniform_of_isinf (p : Fin 20 → ℝ) (times : List ℝ)
    (ep : EccPrior) (h : (get_logP_uniform p times ep).isinf = true) :
    ∀ wavelet_data : List ℝ,
      get_logP p times wavelet_data ep = get_logP_uniform p times ep := by
  intro d
  unfold get_logP
  rw [if_pos h]

/-- When the bounds filter value is not infinite, `get_logP` is the sum
`log_like + log_sig_prior + log_ecc`. -/
lemma logP_eq_sum_of_not_isinf (p : Fin 20 → ℝ) (times data : List ℝ)
    (ep : EccPrior) (h : (get_logP_uniform p times ep).isinf = false) :
    get_logP p times data ep =
      FP.add (FP.add (FP.fin (get_logL (compositeModel p times) data))
        (sigPriorSum p)) (eccCall ep p) := by
  unfold get_logP
  rw [if_neg (by simp [h])]

/-- The signal prior accumulation `0 + s1 + s2 + s3` equals the plain sum
`s1 + s2 + s3` of the three per-wavelet signal amplitude log-priors. -/
lemma sigPriorSum_eq (p : Fin 20 → ℝ) :
    sigPriorSum p =
      FP.add (FP.add (get_signal_logprior (p 2) (p 1) (p 3))
        (get_signal_logprior (p 7) (p 6) (p 8)))
        (get_signal_logprior (p 12) (p 11) (p 13)) := by
  unfold sigPriorSum
  rw [FP.add_fin_zero_left]

/-- C1: if the Bounds and Validity Filter returns `-inf` then `get_logP`
returns `-inf` for every data vector (so the likelihood, signal priors and
composite model never enter the result); otherwise `get_logP` returns
exactly the sum of the Gaussian log-likelihood of the composite
three-wavelet model against the data, the three per-wavelet signal
amplitude log-priors, and the external eccentricity log-prior.  The
hypothesis `eccCall ep p ≠ FP.pinf` is the documented interface of the
external prior (it returns a log-prior, possibly `-inf`, never `+inf`). -/
theorem C1_posterior_evaluator (p : Fin 20 → ℝ) (times : List ℝ)
    (ep : EccPrior) (hep : eccCall ep p ≠ FP.pinf) :
    (get_logP_uniform p times ep = FP.ninf →
      ∀ wavelet_data : List ℝ, get_logP p times wavelet_data ep = FP.ninf) ∧
    (get_logP_uniform p times ep ≠ FP.ninf →
      ∀ wavelet_data : List ℝ, get_logP p times wavelet_data ep =
        FP.add (FP.add
          (FP.fin (get_logL (compositeModel p times) wavelet_data))
          (FP.add (FP.add (get_signal_logprior (p 2) (p 1) (p 3))
            (get_signal_logprior (p 7) (p 6) (p 8)))
            (get_signal_logprior (p 12) (p 11) (p 13))))
        (eccCall ep p)) := by
  constructor
  · intro hu d
    rw [logP_eq_uniform_of_isinf p times ep (by rw [hu]; rfl) d, hu]
  · intro hu d
    have hz : get_logP_uniform p times ep = FP.fin 0 := by
      rcases uniform_shape p times ep with h1 | ⟨h1, h2⟩ | h1
      · exact absurd h1 hu
      · rcases FP.eq_of_isinf_true h2 with hpp | hnn
        · exact absurd hpp hep
        · exact absurd (h1.trans hnn) hu
      · exact h1
    rw [logP_eq_sum_of_not_isinf p times d ep (by rw [hz]; rfl),
      sigPriorSum_eq]

/-- Witness for C1 at the concrete configuration `pg`, `tw`, `epz`. -/
theorem C1_posterior_evaluator_witness :
    eccCall epz pg ≠ FP.pinf ∧
    (get_logP_uniform pg tw epz = FP.ninf →
      ∀ wavelet_data : List ℝ, get_logP pg tw wavelet_data epz = FP.ninf) :=
  ⟨fun hcon => FP.noConfusion hcon,
   (C1_posterior_evaluator pg tw epz (fun hcon => FP.noConfusion hcon)).1⟩

/-- C3: with a two-sample-or-longer grid whose first time is nonzero and
whose first two times differ (so that the source bounds are the finite
values `|1/times[0]|` and `1/(2*dt)`), and an external prior respecting its
interface (never `+inf`), the Bounds and Validity Filter returns only
`-inf` or `0`; it returns `-inf` exactly when some centroid time leaves
`[times[0], times[-1]]`, some frequency leaves
`[|1/times[0]|, 1/(2*dt)]`, some quality factor is `< 1`, some amplitude is
`< 0`, some phase leaves `[-pi, pi]`, or the external eccentricity prior is
infinite; and whenever one of the five local checks fails the result is
`-inf` for every external prior (the prior is never consulted). -/
theorem C3_bounds_filter (p : Fin 20 → ℝ) (times : List ℝ) (ep : EccPrior)
    (hlen : 2 ≤ times.length)
    (ht0 : times.getD 0 0 ≠ 0)
    (hdt : times.getD 1 0 ≠ times.getD 0 0)
    (hep : eccCall ep p ≠ FP.pinf) :
    (get_logP_uniform p times ep = FP.ninf ∨
      get_logP_uniform p times ep = FP.fin 0) ∧
    (get_logP_uniform p times ep = FP.ninf ↔
      ((∃ t ∈ [p 0, p 5, p 10],
          t < times.getD 0 0 ∨ (times.getLast?).getD 0 < t) ∨
       (∃ f ∈ [p 1, p 6, p 11],
          f < |1 / times.getD 0 0| ∨
          1 / (2 * (times.getD 1 0 - times.getD 0 0)) < f) ∨
       (∃ q ∈ [p 3, p 8, p 13], q < 1) ∨
       (∃ a ∈ [p 2, p 7, p 12], a < 0) ∨
       (∃ phi ∈ [p 4, p 9, p 14], phi < -Real.pi ∨ Real.pi < phi) ∨
       (eccCall ep p).isinf = true)) ∧
    ((timeOutOfBounds p times ∨ freqOutOfBounds p times ∨
        qualityOutOfBounds p ∨ ampOutOfBounds p ∨ phaseOutOfBounds p) →
      ∀ ep2 : EccPrior, get_logP_uniform p times ep2 = FP.ninf) := by
  have hsub : times.getD 1 0 - times.getD 0 0 ≠ 0 := sub_ne_zero.mpr hdt
  have hfr : freqOutOfBounds p times ↔
      (∃ f ∈ [p 1, p 6, p 11],
        f < |1 / times.getD 0 0| ∨
        1 / (2 * (times.getD 1 0 - times.getD 0 0)) < f) := by
    unfold freqOutOfBounds
    rw [freqLow_eq times ht0, freqHigh_eq times hsub]
    simp only [FP.lt_fin_fin]
  have hshape : get_logP_uniform p times ep = FP.ninf ∨
      get_logP_uniform p times ep = FP.fin 0 := by
    rcases uniform_shape p times ep with h1 | ⟨h1, h2⟩ | h1
    · exact Or.inl h1
    · rcases FP.eq_of_isinf_true h2 with hpp | hnn
      · exact absurd hpp hep
      · exact Or.inl (h1.trans hnn)
    · exact Or.inr h1
  refine ⟨hshape, ?_, fun hl ep2 => uniform_ninf_of_local p times ep2 hl⟩
  constructor
  · intro hninf
    by_contra hC
    have n1 : ¬ timeOutOfBounds p times := fun hx => hC (Or.inl hx)
    have n2 : ¬ freqOutOfBounds p times :=
      fun hx => hC (Or.inr (Or.inl (hfr.mp hx)))
    have n3 : ¬ qualityOutOfBounds p :=
      fun hx => hC (Or.inr (Or.inr (Or.inl hx)))
    have n4 : ¬ ampOutOfBounds p :=
      fun hx => hC (Or.inr (Or.inr (Or.inr (Or.inl hx))))
    have n5 : ¬ phaseOutOfBounds p :=
      fun hx => hC (Or.inr (Or.inr (Or.inr (Or.inr (Or.inl hx)))))
    have n6 : ¬ (eccCall ep p).isinf = true :=
      fun hx => hC (Or.inr (Or.inr (Or.inr (Or.inr (Or.inr hx)))))
    have hpass := uniform_of_checks_pass p times ep n1 n2 n3 n4 n5
    rw [hpass, if_neg n6] at hninf
    exact FP.noConfusion hninf
  · intro hc
    rcases hc with hT | hF | hQ | hA | hP | hE
    · exact uniform_ninf_of_local _ _ _ (Or.inl hT)
    · exact uniform_ninf_of_local _ _ _ (Or.inr (Or.inl (hfr.mpr hF)))
    · exact uniform_ninf_of_local _ _ _ (Or.inr (Or.inr (Or.inl hQ)))
    · exact uniform_ninf_of_local _ _ _
        (Or.inr (Or.inr (Or.inr (Or.inl hA))))
    · exact uniform_ninf_of_local _ _ _
        (Or.inr (Or.inr (Or.inr (Or.inr hP))))
    · rcases hshape with h | h
      · exact h
      · have hzero := (uniform_eq_zero_checks p times ep h).2.2.2.2.2
        exact absurd (hE.symm.trans hzero) Bool.noConfusion

/-- Witness for C3 at the concrete configuration `pg`, `tw`, `epz`. -/
theorem C3_bounds_filter_witness :
    (2 ≤ tw.length ∧ tw.getD 0 0 ≠ 0 ∧ tw.getD 1 0 ≠ tw.getD 0 0) ∧
    (get_logP_uniform pg tw epz = FP.ninf ∨
      get_logP_uniform pg tw epz = FP.fin 0) := by
  have h1 : 2 ≤ tw.length := by norm_num [tw]
  have h2 : tw.getD 0 0 ≠ 0 := by norm_num [tw]
  have h3 : tw.getD 1 0 ≠ tw.getD 0 0 := by norm_num [tw]
  exact ⟨⟨h1, h2, h3⟩,
    (C3_bounds_filter pg tw epz h1 h2 h3 (fun hcon => FP.noConfusion hcon)).1⟩

/-- C7: suppose the grid spacing is positive, the three centroid times, the
quality factors, the amplitudes and the phases all pass their checks, every
frequency passes the lower-bound check, and the external prior value is not
infinite.  Then if every frequency is at most the Nyquist frequency
`1/(2*dt)` — in particular when a frequency equals it exactly — the filter
accepts with `0` (the upper bound is inclusive), while any frequency
strictly greater than `1/(2*dt)` gives `-inf`. -/
theorem C7_nyquist_boundary (p : Fin 20 → ℝ) (times : List ℝ) (ep : EccPrior)
    (hdt : 0 < times.getD 1 0 - times.getD 0 0)
    (hT : ¬ timeOutOfBounds p times)
    (hlo : ∀ f ∈ [p 1, p 6, p 11], ¬ FP.lt (FP.fin f) (freqLow times))
    (hQ : ¬ qualityOutOfBounds p)
    (hA : ¬ ampOutOfBounds p)
    (hP : ¬ phaseOutOfBounds p)
    (hE : (eccCall ep p).isinf = false) :
    ((∀ f ∈ [p 1, p 6, p 11],
        f ≤ 1 / (2 * (times.getD 1 0 - times.getD 0 0))) →
      get_logP_uniform p times ep = FP.fin 0) ∧
    ((∃ f ∈ [p 1, p 6, p 11],
        1 / (2 * (times.getD 1 0 - times.getD 0 0)) < f) →
      get_logP_uniform p times ep = FP.ninf) := by
  have hhigh := freqHigh_eq times hdt.ne'
  constructor
  · intro hf
    have hF : ¬ freqOutOfBounds p times := by
      rintro ⟨f, hmem, hc | hc⟩
      · exact hlo f hmem hc
      · rw [hhigh, FP.lt_fin_fin] at hc
        exact absurd hc (not_lt.mpr (hf f hmem))
    rw [uniform_of_checks_pass p times ep hT hF hQ hA hP,
      if_neg (by simp [hE])]
  · rintro ⟨f, hmem, hc⟩
    refine uniform_ninf_of_local _ _ _ (Or.inr (Or.inl ?_))
    exact ⟨f, hmem, Or.inr (by rw [hhigh, FP.lt_fin_fin]; exact hc)⟩

/-- For a parameter vector built from a 5-element pattern, the time,
quality, amplitude and phase checks all pass when the pattern entries
satisfy the corresponding bounds. -/
lemma cyc5_negchecks (t f A Q phi : ℝ) (times : List ℝ)
    (ht : ¬ (t < times.getD 0 0 ∨ (times.getLast?).getD 0 < t))
    (hq : 1 ≤ Q) (ha : 0 ≤ A)
    (hp1 : -Real.pi ≤ phi) (hp2 : phi ≤ Real.pi) :
    ¬ timeOutOfBounds (cyc5 [t, f, A, Q, phi]) times ∧
    ¬ qualityOutOfBounds (cyc5 [t, f, A, Q, phi]) ∧
    ¬ ampOutOfBounds (cyc5 [t, f, A, Q, phi]) ∧
    ¬ phaseOutOfBounds (cyc5 [t, f, A, Q, phi]) := by
  refine ⟨?_, ?_, ?_, ?_⟩
  · rintro ⟨x, hmem, hcase⟩
    have e : [cyc5 [t, f, A, Q, phi] 0, cyc5 [t, f, A, Q, phi] 5,
        cyc5 [t, f, A, Q, phi] 10] = [t, t, t] := rfl
    rw [e] at hmem
    have hx : x = t := by simpa using hmem
    subst hx
    exact ht hcase
  · rintro ⟨x, hmem, hcase⟩
    have e : [cyc5 [t, f, A, Q, phi] 3, cyc5 [t, f, A, Q, phi] 8,
        cyc5 [t, f, A, Q, phi] 13] = [Q, Q, Q] := rfl
    rw [e] at hmem
    have hx : x = Q := by simpa using hmem
    subst hx
    exact absurd hcase (not_lt.mpr hq)
  · rintro ⟨x, hmem, hcase⟩
    have e : [cyc5 [t, f, A, Q, phi] 2, cyc5 [t, f, A, Q, phi] 7,
        cyc5 [t, f, A, Q, phi] 12] = [A, A, A] := rfl
    rw [e] at hmem
    have hx : x = A := by simpa using hmem
    subst hx
    exact absurd hcase (not_lt.mpr ha)
  · rintro ⟨x, hmem, hcase⟩
    have e : [cyc5 [t, f, A, Q, phi] 4, cyc5 [t, f, A, Q, phi] 9,
        cyc5 [t, f, A, Q, phi] 14] = [phi, phi, phi] := rfl
    rw [e] at hmem
    have hx : x = phi := by simpa using hmem
    subst hx
    rcases hcase with hc | hc
    · exact absurd hc (not_lt.mpr (neg_le.mp (neg_le.mpr hp1)))
    · exact absurd hc (not_lt.mpr hp2)

/-- For a pattern-built parameter vector whose frequency entry passes both
frequency comparisons, the frequency check passes. -/
lemma cyc5_freq_ok (t f A Q phi : ℝ) (times : List ℝ)
    (hlo : ¬ FP.lt (FP.fin f) (freqLow times))
    (hhi : ¬ FP.lt (freqHigh times) (FP.fin f)) :
    ¬ freqOutOfBounds (cyc5 [t, f, A, Q, phi]) times := by
  rintro ⟨x, hmem, hcase⟩
  have e : [cyc5 [t, f, A, Q, phi] 1, cyc5 [t, f, A, Q, phi] 6,
      cyc5 [t, f, A, Q, phi] 11] = [f, f, f] := rfl
  rw [e] at hmem
  have hx : x = f := by simpa using hmem
  subst hx
  rcases hcase with hc | hc
  · exact hlo hc
  · exact hhi hc

/-- A pattern-built parameter vector satisfying all checks is accepted by
the filter when the eccentricity prior value is not infinite. -/
lemma cyc5_uniform_zero (t f A Q phi : ℝ) (times : List ℝ) (ep : EccPrior)
    (ht : ¬ (t < times.getD 0 0 ∨ (times.getLast?).getD 0 < t))
    (hflo : ¬ FP.lt (FP.fin f) (freqLow times))
    (hfhi : ¬ FP.lt (freqHigh times) (FP.fin f))
    (hq : 1 ≤ Q) (ha : 0 ≤ A)
    (hp1 : -Real.pi ≤ phi) (hp2 : phi ≤ Real.pi)
    (hE : (eccCall ep (cyc5 [t, f, A, Q, phi])).isinf = false) :
    get_logP_uniform (cyc5 [t, f, A, Q, phi]) times ep = FP.fin 0 := by
  obtain ⟨hT, hQ', hA', hP'⟩ := cyc5_negchecks t f A Q phi times ht hq ha hp1 hp2
  rw [uniform_of_checks_pass _ _ _ hT (cyc5_freq_ok t f A Q phi times hflo hfhi)
    hQ' hA' hP', if_neg (by simp [hE])]

/-- Witness for C7: over the grid `tw` (spacing 1/4, Nyquist frequency 2),
the vector `pNy` with every frequency exactly 2 is accepted with `0`, and
the vector `pNyAbove` with every frequency 3 is rejected with `-inf`. -/
theorem C7_nyquist_boundary_witness :
    get_logP_uniform pNy tw epz = FP.fin 0 ∧
    get_logP_uniform pNyAbove tw epz = FP.ninf := by
  have h10 : tw.getD 0 0 = (1 : ℝ) := rfl
  have h11 : tw.getD 1 0 = (5 / 4 : ℝ) := rfl
  have hdt : (0 : ℝ) < tw.getD 1 0 - tw.getD 0 0 := by
    rw [h10, h11]; norm_num
  have hlow : freqLow tw = FP.fin |1 / (1 : ℝ)| := by
    rw [freqLow_eq tw (by rw [h10]; norm_num), h10]
  have hhigh : freqHigh tw = FP.fin (1 / (2 * ((5 / 4 : ℝ) - 1))) := by
    rw [freqHigh_eq tw (by rw [h11, h10]; norm_num), h11, h10]
  have ht : ¬ ((1 : ℝ) < tw.getD 0 0 ∨ (tw.getLast?).getD 0 < 1) := by
    rw [h10, show (tw.getLast?).getD 0 = (5 / 4 : ℝ) from rfl]
    norm_num
  constructor
  · have hflo : ¬ FP.lt (FP.fin (2 : ℝ)) (freqLow tw) := by
      rw [hlow, FP.lt_fin_fin]; norm_num
    obtain ⟨hT, hQ', hA', hP'⟩ := cyc5_negchecks 1 2 1 1 0 tw ht
      (le_refl 1) (le_of_lt one_pos) (by linarith [Real.pi_pos])
      (le_of_lt Real.pi_pos)
    have hlo : ∀ f ∈ [pNy 1, pNy 6, pNy 11],
        ¬ FP.lt (FP.fin f) (freqLow tw) := by
      rw [show [pNy 1, pNy 6, pNy 11] = [(2 : ℝ), 2, 2] from rfl]
      intro f hf
      have hf2 : f = 2 := by simpa using hf
      subst hf2
      exact hflo
    have hle : ∀ f ∈ [pNy 1, pNy 6, pNy 11],
        f ≤ 1 / (2 * (tw.getD 1 0 - tw.getD 0 0)) := by
      rw [show [pNy 1, pNy 6, pNy 11] = [(2 : ℝ), 2, 2] from rfl]
      intro f hf
      have hf2 : f = 2 := by simpa using hf
      subst hf2
      rw [h10, h11]
      norm_num
    exact (C7_nyquist_boundary pNy tw epz hdt hT hlo hQ' hA' hP' rfl).1 hle
  · obtain ⟨hT, hQ', hA', hP'⟩ := cyc5_negchecks 1 3 1 1 0 tw ht
      (le_refl 1) (le_of_lt one_pos) (by linarith [Real.pi_pos])
      (le_of_lt Real.pi_pos)
    have hlo : ∀ f ∈ [pNyAbove 1, pNyAbove 6, pNyAbove 11],
        ¬ FP.lt (FP.fin f) (freqLow tw) := by
      rw [show [pNyAbove 1, pNyAbove 6, pNyAbove 11] = [(3 : ℝ), 3, 3] from rfl]
      intro f hf
      have hf2 : f = 3 := by simpa using hf
      subst hf2
      rw [hlow, FP.lt_fin_fin]
      norm_num
    refine (C7_nyquist_boundary pNyAbove tw epz hdt hT hlo hQ' hA' hP' rfl).2 ?_
    rw [show [pNyAbove 1, pNyAbove 6, pNyAbove 11] = [(3 : ℝ), 3, 3] from rfl]
    refine ⟨3, by simp, ?_⟩
    rw [h10, h11]
    norm_num

/-- C10: on a grid of at least two samples whose first time is 0, the IEEE
evaluation of the frequency lower bound `abs(1/times[0])` is `+inf` (no
exception is raised), so for every parameter vector and every external
prior the filter returns `-inf` (through the time check or through the
frequency lower-bound check, which no finite frequency can pass), and hence
`get_logP` returns `-inf` for every data vector. -/
theorem C10_zero_first_time (times : List ℝ) (hlen : 2 ≤ times.length)
    (h0 : times.getD 0 0 = 0) :
    freqLow times = FP.pinf ∧
    ∀ (p : Fin 20 → ℝ) (ep : EccPrior),
      get_logP_uniform p times ep = FP.ninf ∧
      ∀ wavelet_data : List ℝ, get_logP p times wavelet_data ep = FP.ninf := by
  refine ⟨freqLow_pinf times h0, fun p ep => ?_⟩
  have hu : get_logP_uniform p times ep = FP.ninf := by
    by_cases hT : timeOutOfBounds p times
    · exact uniform_ninf_of_local _ _ _ (Or.inl hT)
    · refine uniform_ninf_of_local _ _ _ (Or.inr (Or.inl ?_))
      refine ⟨p 1, by simp, Or.inl ?_⟩
      rw [freqLow_pinf times h0]
      exact FP.lt_fin_pinf (p 1)
  refine ⟨hu, fun d => ?_⟩
  rw [logP_eq_uniform_of_isinf p times ep (by rw [hu]; rfl) d, hu]

/-- Witness for C10 on the concrete grid `tz = [0, 1]`. -/
theorem C10_zero_first_time_witness :
    (2 ≤ tz.length ∧ tz.getD 0 0 = 0) ∧
    get_logP_uniform pg tz epz = FP.ninf :=
  ⟨⟨by norm_num [tz], rfl⟩,
   ((C10_zero_first_time tz (by norm_num [tz]) rfl).2 pg epz).1⟩

/-- Mapping a function over a list commutes with `getD` at in-range
indices. -/
lemma getD_map_of_lt (f : ℝ → ℝ) :
    ∀ (l : List ℝ) (i : ℕ), i < l.length →
      (l.map f).getD i 0 = f (l.getD i 0)
  | [], i, h => by simp at h
  | a :: t, 0, _ => rfl
  | a :: t, i + 1, h => by
    simpa using getD_map_of_lt f t i (by simpa using h)

/-- C5: for every time grid and scalars with `f0 > 0`, `Q ≥ 1`,
`time_wavelet` returns a list of the same length as the grid whose entry at
each in-range index `i` is
`A*exp(-(t-t0)^2/tau^2)*cos(2*pi*f0*(t-t0)+phi)` at `t = times[i]`, with
`tau = Q/(2*pi*f0)`.  It is a pure function of its arguments. -/
theorem C5_wavelet_model (times : List ℝ) (t0 f0 A Q phi : ℝ)
    (hf : 0 < f0) (hQ : 1 ≤ Q) :
    (time_wavelet times t0 f0 A Q phi).length = times.length ∧
    ∀ i : ℕ, i < times.length →
      (time_wavelet times t0 f0 A Q phi).getD i 0 =
        A * Real.exp (-(times.getD i 0 - t0) ^ 2 /
            (Q / (2 * Real.pi * f0)) ^ 2) *
          Real.cos (2 * Real.pi * f0 * (times.getD i 0 - t0) + phi) := by
  constructor
  · simp [time_wavelet]
  · intro i h
    exact getD_map_of_lt _ times i h

/-- Witness for C5 at `times = [0, 1]`, `t0 = 0`, `f0 = 1`, `A = 1`,
`Q = 1`, `phi = 0`. -/
theorem C5_wavelet_model_witness :
    ((0 : ℝ) < 1 ∧ (1 : ℝ) ≤ 1) ∧
    (time_wavelet [0, 1] 0 1 1 1 0).length = [(0 : ℝ), 1].length :=
  ⟨⟨one_pos, le_refl 1⟩,
   (C5_wavelet_model [0, 1] 0 1 1 1 0 one_pos (le_refl 1)).1⟩

/-- For a nonnegative amplitude, positive frequency and quality factor at
least 1 (the facts guaranteed by an accepting filter run), the signal
amplitude prior is `-inf` or finite — never NaN and never `+inf`. -/
lemma signal_logprior_ninf_or_fin (amp cfreq Q : ℝ)
    (hA : 0 ≤ amp) (hf : 0 < cfreq) (hQ : 1 ≤ Q) :
    get_signal_logprior amp cfreq Q = FP.ninf ∨
    ∃ r, get_signal_logprior amp cfreq Q = FP.fin r := by
  have hsnr := get_snr_eq_fin amp cfreq Q hf (by linarith)
  rcases eq_or_lt_of_le hA with h0 | h0
  · left
    have ha : amp = 0 := h0.symm
    subst ha
    apply signal_logprior_of_snr_zero
    rw [hsnr]
    simp
  · right
    have h1 : (0 : ℝ) < Real.sqrt Q := Real.sqrt_pos.mpr (by linarith)
    have h2 : (0 : ℝ) < Real.sqrt (Real.pi * 2) :=
      Real.sqrt_pos.mpr (by positivity)
    have h3 : (0 : ℝ) < Real.sqrt (2 * Real.sqrt (Real.pi * 2) * cfreq) :=
      Real.sqrt_pos.mpr (by positivity)
    have hpos : 0 < amp * Real.sqrt Q /
        Real.sqrt (2 * Real.sqrt (Real.pi * 2) * cfreq) := by positivity
    exact ⟨_, signal_logprior_of_snr_pos _ _ _ _ hsnr hpos⟩

/-- A non-infinite posterior value is finite, provided the external prior
respects its interface (it only returns `-inf` or finite values): after an
accepting filter run no NaN can arise in the posterior sum. -/
lemma logP_fin_of_not_isinf (p : Fin 20 → ℝ) (times data : List ℝ)
    (ep : EccPrior)
    (hep : ∀ c m1 m2 m3 m4 m5, ep c m1 m2 m3 m4 m5 = FP.ninf ∨
      ∃ r, ep c m1 m2 m3 m4 m5 = FP.fin r)
    (h : (get_logP p times data ep).isinf = false) :
    ∃ r : ℝ, get_logP p times data ep = FP.fin r := by
  by_cases hu : (get_logP_uniform p times ep).isinf = true
  · rw [logP_eq_uniform_of_isinf p times ep hu data] at h
    exact Bool.noConfusion (h.symm.trans hu)
  · have hu' : (get_logP_uniform p times ep).isinf = false := by
      simpa using hu
    obtain ⟨⟨hf1, hf6, hf11⟩, ⟨ha2, ha7, ha12⟩, hq3, hq8, hq13⟩ :=
      uniform_zero_params p times ep (uniform_not_isinf_eq_zero p times ep hu')
    have hs1 := signal_logprior_ninf_or_fin (p 2) (p 1) (p 3) ha2 hf1 hq3
    have hs2 := signal_logprior_ninf_or_fin (p 7) (p 6) (p 8) ha7 hf6 hq8
    have hs3 := signal_logprior_ninf_or_fin (p 12) (p 11) (p 13) ha12 hf11 hq13
    have hsig : sigPriorSum p = FP.ninf ∨ ∃ r, sigPriorSum p = FP.fin r := by
      unfold sigPriorSum
      exact FP.add_ninf_or_fin (FP.add_ninf_or_fin (FP.add_ninf_or_fin
        (Or.inr ⟨0, rfl⟩) hs1) hs2) hs3
    have hecc : eccCall ep p = FP.ninf ∨ ∃ r, eccCall ep p = FP.fin r :=
      hep _ _ _ _ _ _
    have htot := FP.add_ninf_or_fin (FP.add_ninf_or_fin
      (Or.inr ⟨get_logL (compositeModel p times) data, rfl⟩) hsig) hecc
    have heq := logP_eq_sum_of_not_isinf p times data ep hu'
    rcases htot with hti | htf
    · rw [heq, hti] at h
      simp at h
    · rw [heq]
      exact htf

/-- Any walker accepted by the resampling loop has a non-infinite
log-posterior: the loop only exits on `not isinf`. -/
lemma resampleWalker_not_isinf (wp : Fin 20 → ℝ) (times data : List ℝ)
    (ep : EccPrior) (g : ℕ → Fin 20 → ℝ) :
    ∀ (fuel : ℕ) (x : Fin 20 → ℝ) (k : ℕ) (y : Fin 20 → ℝ) (k2 : ℕ),
      resampleWalker wp times data ep g fuel x k = some (y, k2) →
      (get_logP y times data ep).isinf = false := by
  intro fuel
  induction fuel with
  | zero =>
    intro x k y k2 hres
    rw [resampleWalker] at hres
    split_ifs at hres with hc
    simp only [Option.some.injEq, Prod.mk.injEq] at hres
    obtain ⟨rfl, rfl⟩ := hres
    simpa using hc
  | succ n ih =>
    intro x k y k2 hres
    rw [resampleWalker] at hres
    split_ifs at hres with hc
    · exact ih _ _ _ _ hres
    · simp only [Option.some.injEq, Prod.mk.injEq] at hres
      obtain ⟨rfl, rfl⟩ := hres
      simpa using hc

/-- Any walker accepted by the resampling loop is either the initial
candidate or a perturbation of the reference vector drawn from the random
stream. -/
lemma resampleWalker_shape (wp : Fin 20 → ℝ) (times data : List ℝ)
    (ep : EccPrior) (g : ℕ → Fin 20 → ℝ) :
    ∀ (fuel : ℕ) (x : Fin 20 → ℝ) (k : ℕ) (y : Fin 20 → ℝ) (k2 : ℕ),
      resampleWalker wp times data ep g fuel x k = some (y, k2) →
      y = x ∨ ∃ m, y = perturb wp (g m) := by
  intro fuel
  induction fuel with
  | zero =>
    intro x k y k2 hres
    rw [resampleWalker] at hres
    split_ifs at hres with hc
    simp only [Option.some.injEq, Prod.mk.injEq] at hres
    exact Or.inl hres.1.symm
  | succ n ih =>
    intro x k y k2 hres
    rw [resampleWalker] at hres
    split_ifs at hres with hc
    · rcases ih _ _ _ _ hres with he | he
      · exact Or.inr ⟨k, he⟩
      · exact Or.inr he
    · simp only [Option.some.injEq, Prod.mk.injEq] at hres
      exact Or.inl hres.1.symm

/-- Soundness of the walker loop: a successful run returns as many walkers
as it was given candidates, each one an initial candidate or a fresh
perturbation, and each with non-infinite log-posterior. -/
lemma startLocGo_sound (wp : Fin 20 → ℝ) (times data : List ℝ)
    (ep : EccPrior) (g : ℕ → Fin 20 → ℝ) (fuel : ℕ) :
    ∀ (xs : List (Fin 20 → ℝ)) (k : ℕ) (out : List (Fin 20 → ℝ)),
      startLocGo wp times data ep g fuel xs k = some out →
      out.length = xs.length ∧
      ∀ y ∈ out, ((∃ x ∈ xs, y = x) ∨ ∃ m, y = perturb wp (g m)) ∧
        (get_logP y times data ep).isinf = false := by
  intro xs
  induction xs with
  | nil =>
    intro k out h
    simp only [startLocGo, Option.some.injEq] at h
    subst h
    exact ⟨rfl, by simp⟩
  | cons x rest ih =>
    intro k out h
    cases hres : resampleWalker wp times data ep g fuel x k with
    | none => simp [startLocGo, hres] at h
    | some yk =>
      obtain ⟨y, k2⟩ := yk
      cases hgo : startLocGo wp times data ep g fuel rest k2 with
      | none => simp [startLocGo, hres, hgo] at h
      | some l =>
        have hout : out = y :: l := by
          simp [startLocGo, hres, hgo] at h
          exact h.symm
        subst hout
        obtain ⟨hlen, hmem⟩ := ih k2 l hgo
        constructor
        · simp [hlen]
        · intro z hz
          rcases List.mem_cons.mp hz with rfl | hz2
          · refine ⟨?_, resampleWalker_not_isinf wp times data ep g
              fuel x k z k2 hres⟩
            rcases resampleWalker_shape wp times data ep g fuel x k z k2
              hres with he | he
            · exact Or.inl ⟨x, List.mem_cons_self x rest, he⟩
            · exact Or.inr he
          · obtain ⟨hshape, hinf⟩ := hmem z hz2
            refine ⟨?_, hinf⟩
            rcases hshape with ⟨x2, hx2, he⟩ | he
            · exact Or.inl ⟨x2, List.mem_cons_of_mem x hx2, he⟩
            · exact Or.inr he

/-- C2: a successful run of the Walker Initializer returns exactly
`nwalkers` vectors; each returned vector is the reference vector plus a
perturbation drawn from the random stream and scaled componentwise by the
fixed vector `[0.01, 1, 1, 0.1, 0.2, 0.01, 1, 1, 0.1, 0.2, 0.01, 1, 1,
0.1, 0.2, 1, 0.5, 0.01, 0.01, 1]`; and, provided the external prior
respects its interface (returning only `-inf` or finite values), every
returned vector has a finite log-posterior under `get_logP`.  The random
stream `g` stands for the successive draws of `np.random.randn(dim)` with
`dim = 20`; `fuel` bounds the source's unbounded rejection loop, and every
output of that loop is obtained for some `fuel`. -/
theorem C2_walker_initializer (wp : Fin 20 → ℝ) (nwalkers : ℕ)
    (times data : List ℝ) (ep : EccPrior) (g : ℕ → Fin 20 → ℝ) (fuel : ℕ)
    (out : List (Fin 20 → ℝ))
    (hep : ∀ c m1 m2 m3 m4 m5, ep c m1 m2 m3 m4 m5 = FP.ninf ∨
      ∃ r, ep c m1 m2 m3 m4 m5 = FP.fin r)
    (hout : start_loc wp nwalkers times data ep g fuel = some out) :
    out.length = nwalkers ∧
    (∀ v ∈ out, ∃ k, ∀ j : Fin 20,
      v j = wp j + [0.01, 1, 1, 0.1, 0.2, 0.01, 1, 1, 0.1, 0.2, 0.01, 1, 1,
        0.1, 0.2, 1, 0.5, 0.01, 0.01, 1].getD j 0 * g k j) ∧
    (∀ v ∈ out, ∃ r : ℝ, get_logP v times data ep = FP.fin r) := by
  unfold start_loc at hout
  obtain ⟨hlen, hmem⟩ := startLocGo_sound wp times data ep g fuel _ _ out hout
  refine ⟨by simpa using hlen, ?_, ?_⟩
  · intro v hv
    rcases (hmem v hv).1 with ⟨x, hx, rfl⟩ | ⟨m, rfl⟩
    · simp only [List.mem_map, List.mem_range] at hx
      obtain ⟨i, _, rfl⟩ := hx
      exact ⟨i, fun j => rfl⟩
    · exact ⟨m, fun j => rfl⟩
  · intro v hv
    exact logP_fin_of_not_isinf v times data ep hep (hmem v hv).2

/-- C9: the acceptance test of the Walker Initializer is `np.isinf`, which
is false on NaN: a candidate whose log-posterior is NaN exits the
resampling loop immediately and is returned unchanged, and with one walker
whose initial candidate has NaN log-posterior, `start_loc` returns exactly
that candidate.  So the finiteness guarantee of the initializer holds only
when `get_logP` never returns NaN on accepted candidates. -/
theorem C9_nan_accepted (wp x : Fin 20 → ℝ) (times data : List ℝ)
    (ep : EccPrior) (g : ℕ → Fin 20 → ℝ) (fuel k : ℕ)
    (hx : get_logP x times data ep = FP.nan)
    (h0 : get_logP (perturb wp (g 0)) times data ep = FP.nan) :
    FP.isinf FP.nan = false ∧
    resampleWalker wp times data ep g fuel x k = some (x, k) ∧
    start_loc wp 1 times data ep g fuel = some [perturb wp (g 0)] := by
  have haccept : ∀ (fuel2 k2 : ℕ) (z : Fin 20 → ℝ),
      get_logP z times data ep = FP.nan →
      resampleWalker wp times data ep g fuel2 z k2 = some (z, k2) := by
    intro fuel2 k2 z hz
    cases fuel2 with
    | zero => rw [resampleWalker, if_neg (by rw [hz]; simp)]
    | succ n => rw [resampleWalker, if_neg (by rw [hz]; simp)]
  refine ⟨rfl, haccept fuel k x hx, ?_⟩
  unfold start_loc
  rw [show (List.range 1).map (fun i => perturb wp (g i)) =
    [perturb wp (g 0)] from rfl]
  simp [startLocGo, haccept fuel 1 (perturb wp (g 0)) h0]

/-- The concrete in-bounds vector `pg` passes the filter over `tw` for any
external prior whose value at it is not infinite. -/
lemma uniform_pg_zero (ep : EccPrior)
    (hE : (eccCall ep pg).isinf = false) :
    get_logP_uniform pg tw ep = FP.fin 0 := by
  have h10 : tw.getD 0 0 = (1 : ℝ) := rfl
  have h11 : tw.getD 1 0 = (5 / 4 : ℝ) := rfl
  have hlow : freqLow tw = FP.fin |1 / (1 : ℝ)| := by
    rw [freqLow_eq tw (by rw [h10]; norm_num), h10]
  have hhigh : freqHigh tw = FP.fin (1 / (2 * ((5 / 4 : ℝ) - 1))) := by
    rw [freqHigh_eq tw (by rw [h11, h10]; norm_num), h11, h10]
  exact cyc5_uniform_zero 1 1 1 1 0 tw ep
    (by rw [h10, show (tw.getLast?).getD 0 = (5 / 4 : ℝ) from rfl]; norm_num)
    (by rw [hlow, FP.lt_fin_fin]; norm_num)
    (by rw [hhigh, FP.lt_fin_fin]; norm_num)
    (le_refl 1) zero_le_one (by linarith [Real.pi_pos]) Real.pi_pos.le hE

/-- The signal amplitude prior at amplitude 1, frequency 1 and quality
factor 1 is finite. -/
lemma sig111_fin : ∃ r, get_signal_logprior 1 1 1 = FP.fin r := by
  have hsnr := get_snr_eq_fin 1 1 1 one_pos zero_le_one
  have h2 : (0 : ℝ) < Real.sqrt (Real.pi * 2) :=
    Real.sqrt_pos.mpr (by positivity)
  have h3 : (0 : ℝ) < Real.sqrt (2 * Real.sqrt (Real.pi * 2) * 1) :=
    Real.sqrt_pos.mpr (by positivity)
  have hpos : (0 : ℝ) <
      1 * Real.sqrt 1 / Real.sqrt (2 * Real.sqrt (Real.pi * 2) * 1) := by
    rw [Real.sqrt_one]
    positivity
  exact ⟨_, signal_logprior_of_snr_pos _ _ _ _ hsnr hpos⟩

/-- The signal prior accumulation is finite at the vector `pg`. -/
lemma sigPriorSum_pg_fin : ∃ r, sigPriorSum pg = FP.fin r := by
  obtain ⟨r, hr⟩ := sig111_fin
  refine ⟨0 + r + r + r, ?_⟩
  show FP.add (FP.add (FP.add (FP.fin 0) (get_signal_logprior 1 1 1))
    (get_signal_logprior 1 1 1)) (get_signal_logprior 1 1 1) = _
  rw [hr, FP.add_fin_fin, FP.add_fin_fin, FP.add_fin_fin]

/-- The log-posterior of `pg` over `tw` against `dw` with the constant-zero
external prior is finite. -/
lemma logP_pg_fin : ∃ r, get_logP pg tw dw epz = FP.fin r := by
  obtain ⟨r, hr⟩ := sigPriorSum_pg_fin
  have hu : get_logP_uniform pg tw epz = FP.fin 0 := uniform_pg_zero epz rfl
  refine ⟨get_logL (compositeModel pg tw) dw + r + 0, ?_⟩
  rw [logP_eq_sum_of_not_isinf pg tw dw epz (by rw [hu]; rfl), hr,
    show eccCall epz pg = FP.fin 0 from rfl, FP.add_fin_fin, FP.add_fin_fin]

/-- The log-posterior of `pg` over `tw` with the constant-NaN external
prior is NaN: the filter passes (NaN is not infinite), and the NaN prior
value absorbs the sum. -/
lemma logP_pg_nan (data : List ℝ) : get_logP pg tw data epn = FP.nan := by
  have hu : get_logP_uniform pg tw epn = FP.fin 0 := uniform_pg_zero epn rfl
  rw [logP_eq_sum_of_not_isinf pg tw data epn (by rw [hu]; rfl),
    show eccCall epn pg = FP.nan from rfl, FP.add_nan_right]

/-- With the zero random stream, the perturbed candidate is the reference
vector itself. -/
lemma perturb_pg_gz : perturb pg (gz 0) = pg := by
  funext j
  simp [perturb, gz]

/-- Witness for C2 at one walker around `pg` over `tw` with the
constant-zero prior and the zero random stream. -/
theorem C2_walker_initializer_witness :
    start_loc pg 1 tw dw epz gz 0 = some [perturb pg (gz 0)] ∧
    ∀ v ∈ [perturb pg (gz 0)], ∃ r : ℝ, get_logP v tw dw epz = FP.fin r := by
  obtain ⟨r, hr⟩ := logP_pg_fin
  have hni : (get_logP (perturb pg (gz 0)) tw dw epz).isinf = false := by
    rw [perturb_pg_gz, hr]
    rfl
  have hres : resampleWalker pg tw dw epz gz 0 (perturb pg (gz 0)) 1 =
      some (perturb pg (gz 0), 1) := by
    rw [resampleWalker, if_neg (by simp [hni])]
  have hsome : start_loc pg 1 tw dw epz gz 0 = some [perturb pg (gz 0)] := by
    unfold start_loc
    rw [show (List.range 1).map (fun i => perturb pg (gz i)) =
      [perturb pg (gz 0)] from rfl]
    simp [startLocGo, hres]
  exact ⟨hsome, (C2_walker_initializer pg 1 tw dw epz gz 0
    [perturb pg (gz 0)] (fun c m1 m2 m3 m4 m5 => Or.inr ⟨0, rfl⟩)
    hsome).2.2⟩

/-- Witness for C9: with the constant-NaN external prior, the in-bounds
vector `pg` has NaN log-posterior, the resampling loop accepts it
unchanged, and `start_loc` returns it in the population. -/
theorem C9_nan_accepted_witness :
    get_logP pg tw dw epn = FP.nan ∧
    resampleWalker pg tw dw epn gz 0 pg 0 = some (pg, 0) ∧
    start_loc pg 1 tw dw epn gz 0 = some [perturb pg (gz 0)] := by
  have hx := logP_pg_nan dw
  have h0 : get_logP (perturb pg (gz 0)) tw dw epn = FP.nan := by
    rw [perturb_pg_gz]
    exact logP_pg_nan dw
  obtain ⟨_, h2, h3⟩ := C9_nan_accepted pg pg tw dw epn gz 0 0 hx h0
  exact ⟨hx, h2, h3⟩
